import Mathlib

/-!
Verification of the Claire data-preparation core (`prepare_data.py`) and of the
text-augmentation generator it calls.

The chunking loop of `prepare_fn` (lines 205-286 of `prepare_data.py`) is embedded
as an executable Lean function over `List Nat` token sequences.  The tokenizer is
abstracted exactly at the boundary the code uses it: a predicate on single token
values (`decode(token).startswith(" ")`, used by the word-boundary backward walk),
and encode/decode functions for the tag-boundary resolution step.
-/

set_option autoImplicit false

namespace Claire

/-- Configuration of one chunking run, mirroring the parameters of the loop in
`prepare_fn`: `B` is `effective_block_size`, `pad` is `padding`, `cut` is
`cut_around_turns`, `P`/`S` are `tag_token_prefix`/`tag_token_suffix`, `eos` is
`tokenizer.eos_id`, and `isStart tok` models
`tokenizer.decode(torch.tensor(tok)).startswith(" ")`. -/
structure ChunkCfg where
  B : Nat
  pad : Bool
  cut : Bool
  P : Nat
  S : Nat
  eos : Nat
  isStart : Nat → Bool

/-- Ghost record of one loop iteration: the cursor at iteration start, the length
of the carried `add_prefix`, the emitted array `a` (after padding), the number of
fresh tokens `len(text_ids[istart:iend])` inside it, the slice
`text_ids[istart:iend+10]` scanned for tag tokens (`none` when
`cut_around_turns` is false, and for the single-segment path), and the cursor
value at the end of the iteration. -/
structure IterRec where
  istart : Nat
  prefLen : Nat
  seg : List Nat
  freshLen : Nat
  searchSlice : Option (List Nat)
  istartNext : Nat
deriving DecidableEq, Repr

/-- Outcome of a chunking run.  `done` is normal loop exit; `brokeTail` is the
`break` on a short tail (line 222 of `prepare_data.py`); the `abort*`
constructors are the `assert` statements / error exits of the loop, each
carrying the segments emitted before the failure.  `abortWalk` models the
word-boundary walk running off the start of the sequence (in Python this would
wrap into negative indexing); `abortFuel` is the structural-recursion bound,
unreachable because the cursor strictly increases whenever the loop continues. -/
inductive ChunkResult where
  | done (trace : List IterRec)
  | brokeTail (trace : List IterRec)
  | abortIend (trace : List IterRec)
  | abortNoPref (trace : List IterRec)
  | abortRealign (trace : List IterRec)
  | abortWalk (trace : List IterRec)
  | abortCursor (trace : List IterRec)
  | abortFuel (trace : List IterRec)
deriving DecidableEq, Repr

/-- Segments/iterations recorded by a run, whatever its outcome. -/
def ChunkResult.trace : ChunkResult → List IterRec
  | .done t => t
  | .brokeTail t => t
  | .abortIend t => t
  | .abortNoPref t => t
  | .abortRealign t => t
  | .abortWalk t => t
  | .abortCursor t => t
  | .abortFuel t => t

def ChunkResult.isAbortCursor : ChunkResult → Bool
  | .abortCursor _ => true
  | _ => false

def ChunkResult.isAbortWalk : ChunkResult → Bool
  | .abortWalk _ => true
  | _ => false

def ChunkResult.isBrokeTail : ChunkResult → Bool
  | .brokeTail _ => true
  | _ => false

/-- Index of the last occurrence of `v` in `l` (`torch.where(selec == v)[0][-1]`),
or `none` when `v` does not occur. -/
def lastIndexOf (l : List Nat) (v : Nat) : Option Nat :=
  ((List.range l.length).filter fun i => l.getD i 0 == v).getLast?

/-- The word-boundary backward walk
`while not tokenizer.decode(text_ids[istart]).startswith(" "): istart -= 1`:
starting at position `t`, the largest `m ≤ t` whose token satisfies `f`, or
`none` when no position down to 0 does (in which case Python would walk into
negative indices). -/
def walkFind (f : Nat → Bool) (ids : List Nat) : Nat → Option Nat
  | 0 => if f (ids.getD 0 0) then some 0 else none
  | t + 1 => if f (ids.getD (t + 1) 0) then some (t + 1) else walkFind f ids t

/-- The cursor advance of cases 1.2 and 2 after `istart += effective_block_size`:
`if istart < len(text_ids)` run the word-boundary backward walk, else keep
`istart` as is. -/
def walkAdv (cfg : ChunkCfg) (ids : List Nat) (t : Nat) : Option Nat :=
  if t < ids.length then walkFind cfg.isStart ids t else some t

/-- How one iteration of the cutting loop ends when it does not continue:
`iend` is the `assert iend > istart` failure (line 213), `tail` the naive-mode
short-tail `break` (line 222), `noPref` the `assert len(candidates)` failure
(line 247), `realign` the `assert text_ids[istart] == tag_token_prefix` failure
(line 254), `walk` the backward walk running off the start, `cursor` the
`assert istart > previous_istart` failure (line 273). -/
inductive StopKind where
  | iend | tail | noPref | realign | walk | cursor
deriving DecidableEq, Repr

def StopKind.toResult : StopKind → List IterRec → ChunkResult
  | .iend, t => .abortIend t
  | .tail, t => .brokeTail t
  | .noPref, t => .abortNoPref t
  | .realign, t => .abortRealign t
  | .walk, t => .abortWalk t
  | .cursor, t => .abortCursor t

/-- Result of one iteration of the cutting loop: stop before emitting a segment,
emit a segment `r.seg` then stop, or emit and continue with the new cursor and
carried prefix. -/
inductive StepOut where
  | stopNow (k : StopKind)
  | emitStop (r : IterRec) (k : StopKind)
  | cont (r : IterRec) (istartNext : Nat) (addPrefNext : List Nat)
deriving Repr

/-- `a = np.array(selec)`, right-padded to `effective_block_size` with the eos
id when `padding` is set (lines 219-224). -/
def mkSeg (cfg : ChunkCfg) (emitted : List Nat) : List Nat :=
  if cfg.pad ∧ emitted.length < cfg.B then
    emitted ++ List.replicate (cfg.B - emitted.length) cfg.eos
  else emitted

/-- The iteration record built by one loop iteration: the emitted array together
with the ghost fields (cursor, carried-prefix length, fresh-token count, the
scanned slice `text_ids[istart:iend+10]`, and the cursor value `nxt` at the end
of the iteration). -/
def stepRec (cfg : ChunkCfg) (ids : List Nat) (istart : Nat) (p : List Nat) (nxt : Nat) :
    IterRec :=
  ⟨istart, p.length,
   mkSeg cfg (p ++ (ids.drop istart).take (cfg.B - p.length)),
   ((ids.drop istart).take (cfg.B - p.length)).length,
   (if cfg.cut then some ((ids.drop istart).take (cfg.B - p.length + 10)) else none),
   nxt⟩

/-- One iteration of the cutting `while` loop of `prepare_fn` (lines 212-273),
entered with `istart < len(text_ids)` and the carried `add_prefix`. -/
def chunkStep (cfg : ChunkCfg) (ids : List Nat) (istart : Nat) (addPref : List Nat) :
    StepOut :=
  -- iend = istart + effective_block_size - len(add_prefix); assert iend > istart
  if cfg.B ≤ addPref.length then .stopNow .iend
  else
    let emitted := addPref ++ (ids.drop istart).take (cfg.B - addPref.length)
    -- if not cut_around_turns and len(a) <= 10: break
    if ¬ cfg.cut ∧ emitted.length ≤ 10 then .stopNow .tail
    else
      if ¬ cfg.cut then
        -- naive advance; `continue` skips the cursor assertion; add_prefix untouched
        .cont (stepRec cfg ids istart addPref (istart + cfg.B)) (istart + cfg.B) addPref
      else
        -- selec = text_ids[istart:iend+10]
        let selec2 := (ids.drop istart).take (cfg.B - addPref.length + 10)
        match lastIndexOf selec2 cfg.S with
        | some e =>
          match lastIndexOf (selec2.take e) cfg.P with
          | none => .emitStop (stepRec cfg ids istart addPref istart) .noPref
          | some s =>
            if 0 < s then
              -- Case 1.1: shift to the last turn; the cursor assertion holds since 0 < s
              if ids.getD (istart + s) 0 ≠ cfg.P then
                .emitStop (stepRec cfg ids istart addPref (istart + s)) .realign
              else .cont (stepRec cfg ids istart addPref (istart + s)) (istart + s) []
            else
              -- Case 1.2: stay in the same big turn; carry the turn tag
              match walkAdv cfg ids (istart + cfg.B) with
              | none => .emitStop (stepRec cfg ids istart addPref istart) .walk
              | some istart' =>
                if istart < istart' then
                  .cont (stepRec cfg ids istart addPref istart') istart' (selec2.take (e + 1))
                else .emitStop (stepRec cfg ids istart addPref istart') .cursor
        | none =>
          -- Case 2: same speaker all along, or end of conversation.
          -- Note: add_prefix is left unchanged by this branch.
          match walkAdv cfg ids (istart + cfg.B) with
          | none => .emitStop (stepRec cfg ids istart addPref istart) .walk
          | some istart' =>
            if istart < istart' then
              .cont (stepRec cfg ids istart addPref istart') istart' addPref
            else .emitStop (stepRec cfg ids istart addPref istart') .cursor

/-- The cutting `while` loop of `prepare_fn` (lines 210-273).  `fuel` bounds the
structural recursion; the top-level entry point passes `ids.length`, which
suffices because the cursor strictly increases on every continued iteration. -/
def chunkLoop (cfg : ChunkCfg) (ids : List Nat) :
    Nat → Nat → List Nat → List IterRec → ChunkResult
  | 0, istart, _, acc => if istart < ids.length then .abortFuel acc else .done acc
  | fuel + 1, istart, addPref, acc =>
    if istart < ids.length then
      match chunkStep cfg ids istart addPref with
      | .stopNow k => k.toResult acc
      | .emitStop r k => k.toResult (acc ++ [r])
      | .cont r i' p' => chunkLoop cfg ids fuel i' p' (acc ++ [r])
    else .done acc

/-- Embedding of the per-variant chunking of `prepare_fn`:
`if effective_block_size and len(text_ids) > effective_block_size` enters the
cutting loop, otherwise a single (optionally padded) segment is emitted
(lines 276-286). -/
def chunk (cfg : ChunkCfg) (ids : List Nat) : ChunkResult :=
  if 0 < cfg.B ∧ cfg.B < ids.length then
    chunkLoop cfg ids ids.length 0 [] []
  else
    .done [⟨0, 0,
      (if 0 < cfg.B ∧ cfg.pad ∧ ids.length < cfg.B then
         ids ++ List.replicate (cfg.B - ids.length) cfg.eos
       else ids),
      ids.length, none, ids.length⟩]

/-!
### Longest common token prefix / suffix

Embedding of `common_prefix` and `common_suffix` (lines 322-330 of
`prepare_data.py`); the Lean identifiers use camel case.  The `while` loop of
`common_prefix` is written with an explicit fuel equal to its maximal number of
iterations (`min_length`).
-/

/-- `all([l[i] == lists[0][i] for l in lists[1:]])` for `hd = lists[0]`,
`tl = lists[1:]`. -/
def agreeAt (hd : List Nat) (tl : List (List Nat)) (i : Nat) : Bool :=
  tl.all fun l => l.getD i 0 == hd.getD i 0

/-- The `while i < min_length and all(...)` loop of `common_prefix`. -/
def cpLenAux (hd : List Nat) (tl : List (List Nat)) (m : Nat) : Nat → Nat → Nat
  | 0, i => i
  | fuel + 1, i => if i < m ∧ agreeAt hd tl i then cpLenAux hd tl m fuel (i + 1) else i

/-- `min([len(l) for l in lists])` for a non-empty `lists = hd :: tl`. -/
def minLength (hd : List Nat) (tl : List (List Nat)) : Nat :=
  (tl.map List.length).foldl min hd.length

/-- `common_prefix(lists)`; on the empty collection the source raises
(`min` of an empty sequence), modelled here as `[]`. -/
def commonPref (lists : List (List Nat)) : List Nat :=
  match lists with
  | [] => []
  | hd :: tl => hd.take (cpLenAux hd tl (minLength hd tl) (minLength hd tl) 0)

/-- `common_suffix(lists) = common_prefix([l[::-1] for l in lists])[::-1]`. -/
def commonSuf (lists : List (List Nat)) : List Nat :=
  (commonPref (lists.map List.reverse)).reverse

/-!
### Tag-boundary resolution

Embedding of lines 87-99 of `prepare_data.py`: tokenize the three exemplar tag
renderings, take the common token prefix and suffix, and check them.  The
failure modes keep the order of the source: the two non-emptiness `assert`s,
then the two decode `assert`s, then the `NotImplementedError`.
-/

inductive TagErr where
  | emptyPre | emptySuf | badDecode | notImplemented
deriving DecidableEq, Repr

instance {α β : Type} [DecidableEq α] [DecidableEq β] : DecidableEq (Except α β) := fun
  | .error a, .error b =>
    if h : a = b then .isTrue (by rw [h]) else .isFalse fun hh => h (Except.error.inj hh)
  | .error _, .ok _ => .isFalse fun hh => Except.noConfusion hh
  | .ok _, .error _ => .isFalse fun hh => Except.noConfusion hh
  | .ok a, .ok b =>
    if h : a = b then .isTrue (by rw [h]) else .isFalse fun hh => h (Except.ok.inj hh)

/-- The exemplar tag renderings of line 88. -/
def tagExemplars : List String := ["[speaker001:]", "[Intervenant 1:]", "[A:]"]

def tagTokensOf (encode : String → List Nat) : List (List Nat) :=
  tagExemplars.map encode

def tagBoundaryResolve (encode : String → List Nat) (decode : List Nat → String) :
    Except TagErr (Nat × Nat) :=
  let pre := commonPref (tagTokensOf encode)
  let suf := commonSuf (tagTokensOf encode)
  if pre.length = 0 then .error .emptyPre
  else if suf.length = 0 then .error .emptySuf
  else if decode pre ≠ "[" then .error .badDecode
  else if decode suf ≠ ":]" then .error .badDecode
  else if 1 < pre.length ∨ 1 < suf.length then .error .notImplemented
  else .ok (pre.getD 0 0, suf.getD 0 0)

/-!
### Leveled text augmentation

Modelled from the spec: the repository file `utils/text.py`, which defines
`augmented_texts_generator`, is not under `src/` (only its unit tests and its
caller are), so the generator is modelled from the specification's words.  The
generator walks an ordered, text-dependent list of candidate renderings
(candidate 0 being the canonical level-0 normalization); a candidate whose
string was already emitted is skipped; generation stops once `level + 1`
variants have been emitted (`level = none` emits the full staircase).
-/

/-- Modelled from the spec: emit each candidate rendering whose string has not
been emitted before (`seen` is the emitted-so-far accumulator). -/
def dedupEmit : List String → List String → List String
  | [], _ => []
  | c :: rest, seen =>
      if c ∈ seen then dedupEmit rest seen else c :: dedupEmit rest (c :: seen)

/-- Modelled from the spec: `augmented_texts_generator(text, level)`, with the
text represented by its ordered candidate renderings. -/
def augmentedTextsGen (candidates : List String) (level : Option Nat) : List String :=
  match level with
  | none => dedupEmit candidates []
  | some L => (dedupEmit candidates []).take (L + 1)

/-- Modelled from the spec: `maximum_variants_for_this_text`, the text-specific
ceiling of distinct non-trivial transformations. -/
def maxVariants (candidates : List String) : Nat :=
  (dedupEmit candidates []).length - 1

/-- Modelled from the spec: `force_augmentation=True` with `level=0` applies one
randomized transformation (a random name assignment or case variant); the random
source is modelled by a seed choosing from the pool of alternative renderings
that the transformation can produce. -/
def forcedVariants (canonical : String) (pool : List String) (seed : Nat) : List String :=
  [pool.getD (seed % pool.length) canonical]

/-! ### Helper lemmas about the chunking step -/

/-- The iteration record produced by a step, if any. -/
def StepOut.recOf : StepOut → Option IterRec
  | .stopNow _ => none
  | .emitStop r _ => some r
  | .cont r _ _ => some r

/-- Every record produced by `chunkStep` is a `stepRec` for the cursor and
carried prefix the step was entered with, and that cursor/prefix satisfy the
`iend > istart` assertion. -/
theorem chunkStep_rec_eq (cfg : ChunkCfg) (ids : List Nat) (istart : Nat) (p : List Nat)
    (r : IterRec) (h : (chunkStep cfg ids istart p).recOf = some r) :
    (∃ nxt, r = stepRec cfg ids istart p nxt) ∧ p.length < cfg.B := by
  simp only [chunkStep] at h
  repeat' split at h
  all_goals simp only [StepOut.recOf] at h
  all_goals first
    | (obtain rfl : _ = r := Option.some.inj h
       exact ⟨⟨_, rfl⟩, by omega⟩)
    | exact Option.noConfusion h

/-- Field facts about `stepRec`: the fresh-token count is the clamped window
width, the emitted segment has length at most `B` (exactly `B` under padding),
and the scanned slice, when there is one, is `text_ids[istart:iend+10]`. -/
theorem stepRec_spec (cfg : ChunkCfg) (ids : List Nat) (istart : Nat) (p : List Nat)
    (nxt : Nat) (hp : p.length < cfg.B) :
    (stepRec cfg ids istart p nxt).istart = istart ∧
    (stepRec cfg ids istart p nxt).prefLen = p.length ∧
    (stepRec cfg ids istart p nxt).istartNext = nxt ∧
    (stepRec cfg ids istart p nxt).freshLen = min (cfg.B - p.length) (ids.length - istart) ∧
    (stepRec cfg ids istart p nxt).seg.length ≤ cfg.B ∧
    (cfg.pad = true → (stepRec cfg ids istart p nxt).seg.length = cfg.B) ∧
    (∀ w, (stepRec cfg ids istart p nxt).searchSlice = some w →
      w = (ids.drop istart).take (cfg.B - p.length + 10)) := by
  have hE : (p ++ (ids.drop istart).take (cfg.B - p.length)).length
      = p.length + min (cfg.B - p.length) (ids.length - istart) := by
    simp
  refine ⟨rfl, rfl, rfl, by simp [stepRec], ?_, ?_, ?_⟩
  · show (mkSeg cfg _).length ≤ cfg.B
    unfold mkSeg
    split_ifs with hc
    · simp only [List.length_append, List.length_replicate] at *
      omega
    · omega
  · intro hpad
    show (mkSeg cfg _).length = cfg.B
    unfold mkSeg
    split_ifs with hc
    · simp only [List.length_append, List.length_replicate] at *
      omega
    · simp only [hpad, true_and] at hc
      omega
  · intro w hw
    simp only [stepRec] at hw
    split at hw
    · obtain rfl : _ = w := Option.some.inj hw
      rfl
    · exact absurd hw (by simp)

/-- When a step continues, its record is the `stepRec` of the new cursor, and
the cursor strictly increased. -/
theorem chunkStep_cont_lt (cfg : ChunkCfg) (ids : List Nat) (istart : Nat) (p : List Nat)
    (r : IterRec) (i' : Nat) (p' : List Nat)
    (h : chunkStep cfg ids istart p = .cont r i' p') :
    r = stepRec cfg ids istart p i' ∧ istart < i' := by
  simp only [chunkStep] at h
  repeat' split at h
  all_goals first
    | (injection h with h1 h2 h3
       subst h2
       exact ⟨h1.symm, by omega⟩)
    | exact StepOut.noConfusion h

/-- Helper: extending a list of records by one preserves a pointwise property. -/
theorem mem_append_one {α : Type} (P : α → Prop) (acc : List α) (x : α)
    (h1 : ∀ r ∈ acc, P r) (h2 : P x) : ∀ r ∈ acc ++ [x], P r := by
  intro r hr
  rcases List.mem_append.mp hr with h | h
  · exact h1 r h
  · obtain rfl := List.mem_singleton.mp h
    exact h2

/-- The accumulator is a prefix of the trace of any outcome of the loop. -/
theorem chunkLoop_acc (cfg : ChunkCfg) (ids : List Nat) :
    ∀ (fuel istart : Nat) (p : List Nat) (acc : List IterRec),
      acc <+: (chunkLoop cfg ids fuel istart p acc).trace := by
  intro fuel
  induction fuel with
  | zero =>
    intro i p acc
    simp only [chunkLoop]
    split <;> exact List.prefix_rfl
  | succ n ih =>
    intro i p acc
    simp only [chunkLoop]
    split
    · cases hstep : chunkStep cfg ids i p with
      | stopNow k => cases k <;> exact List.prefix_rfl
      | emitStop r0 k => cases k <;> exact List.prefix_append acc [r0]
      | cont r0 i' p' =>
        have h1 : acc <+: acc ++ [r0] := List.prefix_append acc [r0]
        exact h1.trans (ih i' p' (acc ++ [r0]))
    · exact List.prefix_rfl

/-- Every record in the trace of a run is either in the initial accumulator or
was produced by some step of the loop. -/
theorem chunkLoop_records (cfg : ChunkCfg) (ids : List Nat) (Pred : IterRec → Prop)
    (hstep : ∀ istart p r, (chunkStep cfg ids istart p).recOf = some r → Pred r) :
    ∀ (fuel istart : Nat) (p : List Nat) (acc : List IterRec),
      (∀ r ∈ acc, Pred r) → ∀ r ∈ (chunkLoop cfg ids fuel istart p acc).trace, Pred r := by
  intro fuel
  induction fuel with
  | zero =>
    intro i p acc hacc
    simp only [chunkLoop]
    split <;> exact hacc
  | succ n ih =>
    intro i p acc hacc
    simp only [chunkLoop]
    split
    · cases hstep2 : chunkStep cfg ids i p with
      | stopNow k => cases k <;> exact hacc
      | emitStop r0 k =>
        have hr0 : Pred r0 := hstep i p r0 (by rw [hstep2]; rfl)
        cases k <;> exact mem_append_one Pred acc r0 hacc hr0
      | cont r0 i' p' =>
        have hr0 : Pred r0 := hstep i p r0 (by rw [hstep2]; rfl)
        exact ih i' p' (acc ++ [r0]) (mem_append_one Pred acc r0 hacc hr0)
    · exact hacc

/-- C10.  Every segment the chunker emits — single-segment and multi-segment
paths, with or without a carried prefix, whatever the outcome of the run — has
length at most `effective_block_size`, and exactly `effective_block_size` when
padding is enabled. -/
theorem claireC10 (cfg : ChunkCfg) (ids : List Nat) (hB : 0 < cfg.B) :
    ∀ r ∈ (chunk cfg ids).trace,
      r.seg.length ≤ cfg.B ∧ (cfg.pad = true → r.seg.length = cfg.B) := by
  unfold chunk
  split
  case isTrue h =>
    refine chunkLoop_records cfg ids _ ?_ ids.length 0 [] [] (by simp)
    intro istart p r hr
    obtain ⟨⟨nxt, rfl⟩, hp⟩ := chunkStep_rec_eq cfg ids istart p r hr
    have hs := stepRec_spec cfg ids istart p nxt hp
    exact ⟨hs.2.2.2.2.1, hs.2.2.2.2.2.1⟩
  case isFalse h =>
    intro r hr
    simp only [ChunkResult.trace, List.mem_singleton] at hr
    subst hr
    constructor
    · dsimp only
      split_ifs with hc
      · simp only [List.length_append, List.length_replicate]
        omega
      · omega
    · intro hpad
      dsimp only
      split_ifs with hc
      · simp only [List.length_append, List.length_replicate]
        omega
      · simp only [hB, hpad, true_and] at hc
        omega

/-- A concrete configuration used by several witnesses: block size 12, padding
on, turn-aware cutting on, tag tokens absent from the input. -/
def cfgEx : ChunkCfg := ⟨12, true, true, 88, 99, 0, fun _ => true⟩

/-- A concrete 26-token input (tokens `200..225`, no tag tokens). -/
def idsEx : List Nat := (List.range 26).map (200 + ·)

/-- C10 witness: in a concrete padded run, the first emitted segment has length
exactly `effective_block_size = 12`. -/
theorem claireC10_witness :
    ((chunk cfgEx idsEx).trace.headD ⟨0, 0, [], 0, none, 0⟩).seg.length ≤ 12 ∧
    (true = true → ((chunk cfgEx idsEx).trace.headD ⟨0, 0, [], 0, none, 0⟩).seg.length = 12) :=
  claireC10 cfgEx idsEx (by decide)
    ((chunk cfgEx idsEx).trace.headD ⟨0, 0, [], 0, none, 0⟩) (by decide)

/-- C3 counterexample input: block size 8, 24 tokens, tag-opening token `1` at
position 0 and tag-closing token `2` at position 3, so that the first iteration
takes Case 1.2 and carries a 4-token prefix into the second iteration. -/
def idsC3 : List Nat :=
  (List.range 24).map fun i => if i = 0 then 1 else if i = 3 then 2 else 100 + i

def cfgC3 : ChunkCfg := ⟨8, false, true, 1, 2, 0, fun _ => true⟩

/-- C3 counterexample: in the run of `chunk cfgC3 idsC3`, not every iteration
searches the slice `text_ids[istart : istart + target_length + 10]` — the
iteration entered with a 4-token carried prefix searches a slice 4 tokens
shorter. -/
theorem claireC3_cex :
    ¬ ∀ r ∈ (chunk cfgC3 idsC3).trace, ∀ w, r.searchSlice = some w →
      w = (idsC3.drop r.istart).take (cfgC3.B + 10) := by
  decide

/-- C3 amended: every tag search scans the slice
`text_ids[istart : istart + target_length - len(add_prefix) + 10]`, which
coincides with the claimed `[istart, istart + target_length + 10)` window
exactly when the carried prefix is empty. -/
theorem claireC3_amended (cfg : ChunkCfg) (ids : List Nat) :
    ∀ r ∈ (chunk cfg ids).trace, ∀ w, r.searchSlice = some w →
      w = (ids.drop r.istart).take (cfg.B - r.prefLen + 10) ∧
      (r.prefLen = 0 → w = (ids.drop r.istart).take (cfg.B + 10)) := by
  unfold chunk
  split
  case isTrue h =>
    refine chunkLoop_records cfg ids _ ?_ ids.length 0 [] [] (by simp)
    intro istart p r hr
    obtain ⟨⟨nxt, rfl⟩, hp⟩ := chunkStep_rec_eq cfg ids istart p r hr
    have hs := stepRec_spec cfg ids istart p nxt hp
    intro w hw
    have hww := hs.2.2.2.2.2.2 w hw
    constructor
    · rw [hww]
      rfl
    · intro h0
      have h0' : p.length = 0 := h0
      rw [hww]
      show (ids.drop istart).take (cfg.B - p.length + 10) = _
      rw [h0', Nat.sub_zero]
      rfl
  case isFalse h =>
    intro r hr
    simp only [ChunkResult.trace, List.mem_singleton] at hr
    subst hr
    intro w hw
    exact absurd hw (by simp)

/-- C3 amended witness: the first iteration of the `cfgC3` run has an empty
carried prefix, and its searched slice is both `text_ids[0 : B - 0 + 10]` and
`text_ids[0 : B + 10]`. -/
theorem claireC3_amended_witness :
    ((chunk cfgC3 idsC3).trace.headD ⟨0, 0, [], 0, none, 0⟩).searchSlice.getD []
        = (idsC3.drop 0).take (cfgC3.B - 0 + 10) ∧
      ((0 : Nat) = 0 → ((chunk cfgC3 idsC3).trace.headD ⟨0, 0, [], 0, none, 0⟩).searchSlice.getD []
        = (idsC3.drop 0).take (cfgC3.B + 10)) := by
  have h := claireC3_amended cfgC3 idsC3
    ((chunk cfgC3 idsC3).trace.headD ⟨0, 0, [], 0, none, 0⟩) (by decide)
    (((chunk cfgC3 idsC3).trace.headD ⟨0, 0, [], 0, none, 0⟩).searchSlice.getD []) (by decide)
  exact ⟨h.1, fun _ => h.2 (by decide)⟩

/-- If some position `j ≤ t` satisfies the word-start predicate, the backward
walk from `t` succeeds and stops no earlier than `j`. -/
theorem walkFind_some_ge (f : Nat → Bool) (ids : List Nat) :
    ∀ (t j : Nat), j ≤ t → f (ids.getD j 0) = true →
      ∃ m, walkFind f ids t = some m ∧ j ≤ m ∧ m ≤ t := by
  intro t
  induction t with
  | zero =>
    intro j hj hf
    obtain rfl : j = 0 := Nat.le_zero.mp hj
    refine ⟨0, ?_, le_rfl, le_rfl⟩
    show (if f (ids.getD 0 0) = true then some 0 else none) = some 0
    rw [if_pos hf]
  | succ n ih =>
    intro j hj hf
    by_cases hft : f (ids.getD (n + 1) 0) = true
    · refine ⟨n + 1, ?_, hj, le_rfl⟩
      show (if f (ids.getD (n + 1) 0) = true then some (n + 1) else walkFind f ids n)
          = some (n + 1)
      rw [if_pos hft]
    · have hne : j ≠ n + 1 := fun hh => hft (hh ▸ hf)
      obtain ⟨m, hm, h1, h2⟩ := ih j (by omega) hf
      refine ⟨m, ?_, h1, by omega⟩
      show (if f (ids.getD (n + 1) 0) = true then some (n + 1) else walkFind f ids n)
          = some m
      rw [if_neg hft, hm]

/-- A step stops before emitting only on the `iend` assertion or on the naive
short-tail break. -/
theorem chunkStep_stopNow (cfg : ChunkCfg) (ids : List Nat) (istart : Nat)
    (p : List Nat) (k : StopKind) (h : chunkStep cfg ids istart p = .stopNow k) :
    k = .iend ∨ k = .tail := by
  simp only [chunkStep] at h
  repeat' split at h
  all_goals first
    | (injection h with h1
       exact Or.inl h1.symm)
    | (injection h with h1
       exact Or.inr h1.symm)
    | exact StepOut.noConfusion h

/-- Under the word-start availability hypothesis, the cursor advance of cases
1.2 and 2 succeeds and lands strictly beyond the previous cursor. -/
theorem walkAdv_spec (cfg : ChunkCfg) (ids : List Nat) (istart : Nat) (hB : 0 < cfg.B)
    (hw : istart + cfg.B < ids.length →
      ∃ j, j < istart + cfg.B + 1 ∧ istart < j ∧ cfg.isStart (ids.getD j 0) = true) :
    ∃ m, walkAdv cfg ids (istart + cfg.B) = some m ∧ istart < m := by
  unfold walkAdv
  split
  case isTrue hlen =>
    obtain ⟨j, hj1, hj2, hjf⟩ := hw hlen
    obtain ⟨m, hm, h1, h2⟩ := walkFind_some_ge cfg.isStart ids (istart + cfg.B) j (by omega) hjf
    exact ⟨m, hm, by omega⟩
  case isFalse hlen => exact ⟨istart + cfg.B, rfl, by omega⟩

/-- Under the word-start availability hypothesis, one step never ends in the
word-boundary-walk failure nor in the cursor-assertion failure. -/
theorem chunkStep_no_walk_cursor (cfg : ChunkCfg) (ids : List Nat) (istart : Nat)
    (p : List Nat) (hB : 0 < cfg.B)
    (hw : istart + cfg.B < ids.length →
      ∃ j, j < istart + cfg.B + 1 ∧ istart < j ∧ cfg.isStart (ids.getD j 0) = true) :
    ∀ r, chunkStep cfg ids istart p ≠ .emitStop r .walk ∧
         chunkStep cfg ids istart p ≠ .emitStop r .cursor := by
  obtain ⟨m, hm, hlt⟩ := walkAdv_spec cfg ids istart hB hw
  intro r
  constructor <;> intro habs <;>
  · simp only [chunkStep] at habs
    repeat' split at habs
    all_goals first
      | exact StepOut.noConfusion habs
      | (injection habs with h1 h2
         exact StopKind.noConfusion h2)
      | simp_all

/-- Under the word-start availability hypothesis, no run of the loop aborts on
the cursor assertion or on a failing backward walk. -/
theorem chunkLoop_no_walk_cursor (cfg : ChunkCfg) (ids : List Nat) (hB : 0 < cfg.B)
    (hw : ∀ t, t < ids.length → cfg.B ≤ t →
      ∃ j, j < t + 1 ∧ t - cfg.B < j ∧ cfg.isStart (ids.getD j 0) = true) :
    ∀ (fuel istart : Nat) (p : List Nat) (acc : List IterRec),
      (chunkLoop cfg ids fuel istart p acc).isAbortCursor = false ∧
      (chunkLoop cfg ids fuel istart p acc).isAbortWalk = false := by
  intro fuel
  induction fuel with
  | zero =>
    intro i p acc
    simp only [chunkLoop]
    split <;> exact ⟨rfl, rfl⟩
  | succ n ih =>
    intro i p acc
    have hwi : i + cfg.B < ids.length →
        ∃ j, j < i + cfg.B + 1 ∧ i < j ∧ cfg.isStart (ids.getD j 0) = true := by
      intro hlen
      obtain ⟨j, hj1, hj2, hj3⟩ := hw (i + cfg.B) hlen (by omega)
      exact ⟨j, hj1, by omega, hj3⟩
    simp only [chunkLoop]
    split
    · cases hstep : chunkStep cfg ids i p with
      | stopNow k =>
        rcases chunkStep_stopNow cfg ids i p k hstep with rfl | rfl <;> exact ⟨rfl, rfl⟩
      | emitStop r0 k =>
        cases k
        case walk => exact absurd hstep ((chunkStep_no_walk_cursor cfg ids i p hB hwi r0).1)
        case cursor => exact absurd hstep ((chunkStep_no_walk_cursor cfg ids i p hB hwi r0).2)
        all_goals exact ⟨rfl, rfl⟩
      | cont r0 i' p' => exact ih i' p' (acc ++ [r0])
    · exact ⟨rfl, rfl⟩

/-- C4 counterexample input: block size 4, ten tokens, no closing-tag token, and
a tokenizer for which only the very first token decodes to a word start.  The
backward walk of Case 2 then drags the cursor back to position 0 and the
`assert istart > previous_istart` fails. -/
def idsC4 : List Nat := 7 :: List.replicate 9 3

def cfgC4 : ChunkCfg := ⟨4, false, true, 88, 99, 0, fun v => v == 7⟩

/-- C4 counterexample: there is an input and a decode behaviour on which the
cursor does not strictly increase and the loop-termination assertion fails. -/
theorem claireC4_cex : (chunk cfgC4 idsC4).isAbortCursor = true := by decide

/-- C4 amended: the cursor strictly increases on every iteration — so the
assertion never fails, and the walk never runs off the start — provided that
whenever the backward word-boundary walk runs from `istart + target_length`,
some position in `(istart, istart + target_length]` decodes to a word start;
Case A.1 needs no such hypothesis.  An adversarial decode can drive the walk
back to or before the previous cursor and trigger the assertion. -/
theorem claireC4_amended (cfg : ChunkCfg) (ids : List Nat)
    (hw : ∀ t, t < ids.length → cfg.B ≤ t →
      ∃ j, j < t + 1 ∧ t - cfg.B < j ∧ cfg.isStart (ids.getD j 0) = true) :
    (chunk cfg ids).isAbortCursor = false ∧ (chunk cfg ids).isAbortWalk = false := by
  unfold chunk
  split
  case isTrue h => exact chunkLoop_no_walk_cursor cfg ids h.1 hw ids.length 0 [] []
  case isFalse h => exact ⟨rfl, rfl⟩

/-- C4 amended witness: on a concrete input where every token decodes to a word
start, the run neither fails the cursor assertion nor the walk. -/
theorem claireC4_amended_witness :
    (chunk cfgEx idsEx).isAbortCursor = false ∧ (chunk cfgEx idsEx).isAbortWalk = false :=
  claireC4_amended cfgEx idsEx (by decide)

/-- Coverage invariant of the cutting loop: if a run completes normally and no
iteration's final cursor jumps past its window end
`iend = istart + B - len(add_prefix)`, then every input position from the
entry cursor on falls inside the fresh (non-carried-prefix, non-padding) part
of some emitted segment. -/
theorem chunkLoop_cover (cfg : ChunkCfg) (ids : List Nat) :
    ∀ (fuel istart : Nat) (p : List Nat) (acc : List IterRec) (trace : List IterRec),
      chunkLoop cfg ids fuel istart p acc = .done trace →
      (∀ r ∈ trace, r.istartNext ≤ r.istart + (cfg.B - r.prefLen)) →
      ∀ k, istart ≤ k → k < ids.length →
        ∃ r ∈ trace, r.istart ≤ k ∧ k < r.istart + r.freshLen := by
  intro fuel
  induction fuel with
  | zero =>
    intro i p acc trace hdone hcond k hik hk
    simp only [chunkLoop] at hdone
    split at hdone
    · exact ChunkResult.noConfusion hdone
    · omega
  | succ n ih =>
    intro i p acc trace hdone hcond k hik hk
    simp only [chunkLoop] at hdone
    split at hdone
    case isTrue hlen =>
      cases hstep : chunkStep cfg ids i p with
      | stopNow k0 =>
        rw [hstep] at hdone
        rcases chunkStep_stopNow cfg ids i p k0 hstep with rfl | rfl <;>
          exact ChunkResult.noConfusion hdone
      | emitStop r0 k0 =>
        rw [hstep] at hdone
        cases k0 <;> exact ChunkResult.noConfusion hdone
      | cont r0 i' p' =>
        rw [hstep] at hdone
        obtain ⟨rfl, hlt⟩ := chunkStep_cont_lt cfg ids i p r0 i' p' hstep
        have hdone' : chunkLoop cfg ids n i' p' (acc ++ [stepRec cfg ids i p i'])
            = .done trace := hdone
        have hp : p.length < cfg.B :=
          (chunkStep_rec_eq cfg ids i p _ (by rw [hstep]; rfl)).2
        have hs := stepRec_spec cfg ids i p i' hp
        have hmem : stepRec cfg ids i p i' ∈ trace := by
          have hpre := chunkLoop_acc cfg ids n i' p' (acc ++ [stepRec cfg ids i p i'])
          rw [hdone'] at hpre
          exact hpre.subset (by simp)
        by_cases hcase : k < i + (stepRec cfg ids i p i').freshLen
        · exact ⟨stepRec cfg ids i p i', hmem, hik, hcase⟩
        · have hfresh : (stepRec cfg ids i p i').freshLen
              = min (cfg.B - p.length) (ids.length - i) := hs.2.2.2.1
          rw [hfresh] at hcase
          have hcnd : i' ≤ i + (cfg.B - p.length) := hcond _ hmem
          have hik' : i' ≤ k := by omega
          exact ih i' p' (acc ++ [stepRec cfg ids i p i']) trace hdone' hcond k hik' hk
    case isFalse hlen => omega

/-- C1 counterexample input: block size 8, 20 tokens, tag-opening token `1` at
position 12 and tag-closing token `2` at position 14.  The first iteration
emits `[0, 8)` and Case 1.1 realigns the cursor to the turn start at 12 —
positions 8-11 are never emitted. -/
def idsC1 : List Nat :=
  (List.range 20).map fun i => if i = 12 then 1 else if i = 14 then 2 else 100 + i

def cfgC1 : ChunkCfg := ⟨8, false, true, 1, 2, 0, fun _ => true⟩

/-- C1 counterexample: the fresh (non-padding, non-carried-prefix) contents of
the emitted segments do not cover the whole input — position 8 of `idsC1`
appears in no emitted segment, so concatenating them leaves a gap. -/
theorem claireC1_cex :
    ¬ ∀ k, k < idsC1.length → ∃ r ∈ (chunk cfgC1 idsC1).trace,
        r.istart ≤ k ∧ k < r.istart + r.freshLen := by
  decide

/-- C1 amended: concatenating the non-padding, non-carried-prefix contents of
the emitted segments covers every input token provided the cursor never
advances past the current window's end `iend = istart + B - len(add_prefix)`
(`istartNext ≤ istart + (B - prefLen)` for every iteration).  A Case 1.1
realignment target inside the 10-token lookahead margin beyond the window end,
or a carried-prefix iteration's full-block advance (the code advances by
`effective_block_size` even though only `effective_block_size - len(add_prefix)`
fresh tokens were emitted), can skip tokens. -/
theorem claireC1_amended (cfg : ChunkCfg) (ids : List Nat) (trace : List IterRec)
    (hdone : chunk cfg ids = .done trace)
    (hcond : ∀ r ∈ trace, r.istartNext ≤ r.istart + (cfg.B - r.prefLen)) :
    ∀ k, k < ids.length → ∃ r ∈ trace, r.istart ≤ k ∧ k < r.istart + r.freshLen := by
  unfold chunk at hdone
  split at hdone
  case isTrue h =>
    exact fun k hk =>
      chunkLoop_cover cfg ids ids.length 0 [] [] trace hdone hcond k (Nat.zero_le k) hk
  case isFalse h =>
    injection hdone with h1
    subst h1
    intro k hk
    refine ⟨_, List.mem_singleton.mpr rfl, Nat.zero_le k, ?_⟩
    simpa using hk

/-- C1 amended witness: in the concrete run `chunk cfgEx idsEx` the no-skip
hypothesis holds, and position 25 (the last input token) is covered by an
emitted segment. -/
theorem claireC1_amended_witness :
    ∃ r ∈ (chunk cfgEx idsEx).trace, r.istart ≤ 25 ∧ 25 < r.istart + r.freshLen :=
  claireC1_amended cfgEx idsEx (chunk cfgEx idsEx).trace (by decide) (by decide) 25 (by decide)

/-- C5.  A token sequence of length at most `effective_block_size` is emitted as
exactly one segment holding all ids in order, right-padded with the eos id to
exactly `effective_block_size` when padding is enabled and the sequence is
strictly shorter; a sequence of length exactly `effective_block_size` is
emitted unpadded. -/
theorem claireC5 (cfg : ChunkCfg) (ids : List Nat) (hB : 0 < cfg.B)
    (hlen : ids.length ≤ cfg.B) :
    chunk cfg ids = .done [⟨0, 0,
      (if cfg.pad ∧ ids.length < cfg.B then ids ++ List.replicate (cfg.B - ids.length) cfg.eos
       else ids),
      ids.length, none, ids.length⟩] ∧
    (ids.length = cfg.B → chunk cfg ids = .done [⟨0, 0, ids, ids.length, none, ids.length⟩]) := by
  have hnot : ¬ (0 < cfg.B ∧ cfg.B < ids.length) := by omega
  constructor
  · unfold chunk
    rw [if_neg hnot]
    simp only [hB, true_and]
  · intro he
    unfold chunk
    rw [if_neg hnot]
    have hne : ¬ (0 < cfg.B ∧ cfg.pad = true ∧ ids.length < cfg.B) := by
      rintro ⟨-, -, hc⟩
      omega
    rw [if_neg hne]

/-- C5 witness: a concrete 2-token input with block size 4 and padding enabled
is emitted as the single padded segment `[5, 6, 9, 9]`; and the same theorem
applied to a 4-token input of length exactly 4 leaves it unpadded. -/
theorem claireC5_witness :
    chunk ⟨4, true, true, 88, 99, 9, fun _ => true⟩ [5, 6]
      = .done [⟨0, 0, [5, 6, 9, 9], 2, none, 2⟩] ∧
    chunk ⟨4, true, true, 88, 99, 9, fun _ => true⟩ [5, 6, 7, 8]
      = .done [⟨0, 0, [5, 6, 7, 8], 4, none, 4⟩] := by
  constructor
  · rw [(claireC5 ⟨4, true, true, 88, 99, 9, fun _ => true⟩ [5, 6] (by decide) (by decide)).1]
    rfl
  · rw [(claireC5 ⟨4, true, true, 88, 99, 9, fun _ => true⟩ [5, 6, 7, 8] (by decide)
      (by decide)).2 (by decide)]
    rfl

/-- The kinds a step can stop-and-emit with. -/
theorem chunkStep_emitStop_kinds (cfg : ChunkCfg) (ids : List Nat) (istart : Nat)
    (p : List Nat) (r : IterRec) (k : StopKind)
    (h : chunkStep cfg ids istart p = .emitStop r k) :
    k = .noPref ∨ k = .realign ∨ k = .walk ∨ k = .cursor := by
  simp only [chunkStep] at h
  repeat' split at h
  all_goals first
    | (injection h with h1 h2
       subst h2
       simp)
    | exact StepOut.noConfusion h

/-- With turn-aware cutting enabled, a step never takes the short-tail break. -/
theorem chunkStep_no_tail (cfg : ChunkCfg) (ids : List Nat) (istart : Nat)
    (p : List Nat) (hcut : cfg.cut = true) :
    chunkStep cfg ids istart p ≠ .stopNow .tail := by
  intro h
  simp only [chunkStep] at h
  repeat' split at h
  all_goals first
    | exact StepOut.noConfusion h
    | (injection h with h1
       exact StopKind.noConfusion h1)
    | simp_all

/-- With turn-aware cutting enabled, no run of the loop ends in the short-tail
break. -/
theorem chunkLoop_no_tail (cfg : ChunkCfg) (ids : List Nat) (hcut : cfg.cut = true) :
    ∀ (fuel istart : Nat) (p : List Nat) (acc : List IterRec),
      (chunkLoop cfg ids fuel istart p acc).isBrokeTail = false := by
  intro fuel
  induction fuel with
  | zero =>
    intro i p acc
    simp only [chunkLoop]
    split <;> rfl
  | succ n ih =>
    intro i p acc
    simp only [chunkLoop]
    split
    · cases hstep : chunkStep cfg ids i p with
      | stopNow k =>
        cases k
        case tail => exact absurd hstep (chunkStep_no_tail cfg ids i p hcut)
        all_goals rfl
      | emitStop r0 k =>
        rcases chunkStep_emitStop_kinds cfg ids i p r0 k hstep with rfl | rfl | rfl | rfl <;> rfl
      | cont r0 i' p' => exact ih i' p' (acc ++ [r0])
    · rfl

/-- In naive (non-turn-aware) mode, a step either breaks on a fragment of at
most 10 tokens or advances the cursor by exactly `effective_block_size`. -/
theorem chunkStep_naive (cfg : ChunkCfg) (ids : List Nat) (istart : Nat)
    (hcut : cfg.cut = false) (hB10 : 10 < cfg.B) :
    (ids.length - istart ≤ 10 → chunkStep cfg ids istart [] = .stopNow .tail) ∧
    (10 < ids.length - istart →
      chunkStep cfg ids istart []
        = .cont (stepRec cfg ids istart [] (istart + cfg.B)) (istart + cfg.B) []) := by
  have hnotB : ¬ (cfg.B ≤ List.length ([] : List Nat)) := by simp; omega
  have hEmit : ((([] : List Nat)) ++ (ids.drop istart).take (cfg.B - List.length ([] : List Nat))).length
      = min (cfg.B - 0) (ids.length - istart) := by simp
  constructor
  · intro hshort
    simp only [chunkStep, hcut]
    rw [if_neg hnotB, if_pos]
    simp only [List.nil_append, List.length_take, List.length_drop, List.length_nil,
      Nat.sub_zero]
    exact ⟨by simp, by omega⟩
  · intro hlong
    simp only [chunkStep, hcut]
    rw [if_neg hnotB, if_neg, if_pos (by simp)]
    simp only [List.nil_append, List.length_take, List.length_drop, List.length_nil,
      Nat.sub_zero]
    rintro ⟨-, hc⟩
    omega

/-- In naive mode with a block size above the discard floor and a final
fragment of 1 to 10 tokens, the loop emits exactly the full windows and then
breaks: the run ends in `brokeTail` and every emitted fresh window lies inside
`[0, B * (len / B))`, so the tail tokens are in no emitted segment. -/
theorem chunkLoop_naive (cfg : ChunkCfg) (ids : List Nat) (hcut : cfg.cut = false)
    (hB10 : 10 < cfg.B) (hmod : ids.length % cfg.B ≠ 0) (hmod10 : ids.length % cfg.B ≤ 10) :
    ∀ (fuel istart : Nat) (acc : List IterRec),
      istart < ids.length → cfg.B ∣ istart → ids.length ≤ fuel + istart →
      ∃ recs, chunkLoop cfg ids fuel istart [] acc = .brokeTail (acc ++ recs) ∧
        ∀ r ∈ recs, r.istart + r.freshLen ≤ cfg.B * (ids.length / cfg.B) := by
  intro fuel
  induction fuel with
  | zero =>
    intro i acc hi hdvd hfuel
    omega
  | succ n ih =>
    intro i acc hi hdvd hfuel
    simp only [chunkLoop]
    rw [if_pos hi]
    by_cases hshort : ids.length - i ≤ 10
    · rw [(chunkStep_naive cfg ids i hcut hB10).1 hshort]
      exact ⟨[], by simp [StopKind.toResult], by simp⟩
    · push_neg at hshort
      rw [(chunkStep_naive cfg ids i hcut hB10).2 hshort]
      obtain ⟨q, rfl⟩ := hdvd
      have hdm : cfg.B * (ids.length / cfg.B) + ids.length % cfg.B = ids.length :=
        Nat.div_add_mod _ _
      have hq : q < ids.length / cfg.B := by
        by_contra hq'
        push_neg at hq'
        have h1 : cfg.B * (ids.length / cfg.B) ≤ cfg.B * q := Nat.mul_le_mul_left cfg.B hq'
        omega
      have hnext : cfg.B * q + cfg.B ≤ cfg.B * (ids.length / cfg.B) := by
        have h1 : cfg.B * (q + 1) ≤ cfg.B * (ids.length / cfg.B) :=
          Nat.mul_le_mul_left cfg.B (Nat.succ_le_of_lt hq)
        rw [Nat.mul_add, Nat.mul_one] at h1
        exact h1
      have hlt : cfg.B * q + cfg.B < ids.length := by omega
      obtain ⟨recs, hrecs, hbound⟩ :=
        ih (cfg.B * q + cfg.B)
          (acc ++ [stepRec cfg ids (cfg.B * q) [] (cfg.B * q + cfg.B)]) hlt
          ⟨q + 1, by ring⟩ (by omega)
      refine ⟨stepRec cfg ids (cfg.B * q) [] (cfg.B * q + cfg.B) :: recs, ?_, ?_⟩
      · show chunkLoop cfg ids n (cfg.B * q + cfg.B) []
            (acc ++ [stepRec cfg ids (cfg.B * q) [] (cfg.B * q + cfg.B)]) = _
        rw [hrecs]
        simp [List.append_assoc]
      · intro r hr
        rcases List.mem_cons.mp hr with rfl | hr'
        · have hfr : (stepRec cfg ids (cfg.B * q) [] (cfg.B * q + cfg.B)).freshLen
              = min (cfg.B - 0) (ids.length - cfg.B * q) := by
            simp [stepRec]
          have hst : (stepRec cfg ids (cfg.B * q) [] (cfg.B * q + cfg.B)).istart
              = cfg.B * q := rfl
          rw [hst, hfr]
          omega
        · exact hbound r hr'

/-- C6.  When turn-boundary-aware cutting is disabled and the final fragment
has 1 to 10 tokens, the run ends in the silent short-tail break: the tail is
neither padded nor emitted (each emitted fresh window stays within the full
windows `[0, B * (len / B))`) and no assertion fails.  When turn-aware cutting
is enabled, the short-tail break never happens, so no 10-token floor applies
and short final fragments are emitted (padded) like any others. -/
theorem claireC6 :
    (∀ (cfg : ChunkCfg) (ids : List Nat), cfg.cut = false → 10 < cfg.B →
      cfg.B < ids.length → ids.length % cfg.B ≠ 0 → ids.length % cfg.B ≤ 10 →
      ∃ recs, chunk cfg ids = .brokeTail recs ∧
        ∀ r ∈ recs, r.istart + r.freshLen ≤ cfg.B * (ids.length / cfg.B)) ∧
    (∀ (cfg : ChunkCfg) (ids : List Nat), cfg.cut = true →
      (chunk cfg ids).isBrokeTail = false) := by
  constructor
  · intro cfg ids hcut hB10 hlen hmod hmod10
    unfold chunk
    rw [if_pos ⟨by omega, hlen⟩]
    obtain ⟨recs, hrecs, hbound⟩ :=
      chunkLoop_naive cfg ids hcut hB10 hmod hmod10 ids.length 0 [] (by omega)
        (Dvd.intro 0 rfl) (by omega)
    exact ⟨recs, by simpa using hrecs, hbound⟩
  · intro cfg ids hcut
    unfold chunk
    split
    · exact chunkLoop_no_tail cfg ids hcut ids.length 0 [] []
    · rfl

/-- A naive-mode configuration for the C6 witness. -/
def cfgNv : ChunkCfg := ⟨12, true, false, 88, 99, 0, fun _ => true⟩

/-- C6 witness: on the concrete 26-token input with block size 12, the naive run
breaks on the 2-token tail (emitting only the two full windows), while the
turn-aware run on the same input does not break. -/
theorem claireC6_witness :
    (∃ recs, chunk cfgNv idsEx = .brokeTail recs ∧
      ∀ r ∈ recs, r.istart + r.freshLen ≤ 12 * (idsEx.length / 12)) ∧
    (chunk cfgEx idsEx).isBrokeTail = false := by
  constructor
  · have h := claireC6.1 cfgNv idsEx rfl (by decide) (by decide) (by decide) (by decide)
    simpa using h
  · exact claireC6.2 cfgEx idsEx rfl

/-! ### Lemmas about `commonPref` / `commonSuf` -/

theorem foldl_min_le_init : ∀ (xs : List Nat) (init : Nat), xs.foldl min init ≤ init := by
  intro xs
  induction xs with
  | nil => intro init; exact le_rfl
  | cons x xs ih =>
    intro init
    exact le_trans (ih (min init x)) (Nat.min_le_left _ _)

theorem foldl_min_le_mem : ∀ (xs : List Nat) (init x : Nat), x ∈ xs →
    xs.foldl min init ≤ x := by
  intro xs
  induction xs with
  | nil => intro init x hx; exact absurd hx (List.not_mem_nil x)
  | cons y xs ih =>
    intro init x hx
    rcases List.mem_cons.mp hx with rfl | hx'
    · exact le_trans (foldl_min_le_init xs (min init x)) (Nat.min_le_right _ _)
    · exact ih (min init y) x hx'

theorem le_foldl_min : ∀ (xs : List Nat) (init c : Nat), c ≤ init →
    (∀ x ∈ xs, c ≤ x) → c ≤ xs.foldl min init := by
  intro xs
  induction xs with
  | nil => intro init c h _; exact h
  | cons y xs ih =>
    intro init c h hall
    exact ih (min init y) c (le_min h (hall y (List.mem_cons_self y xs)))
      fun x hx => hall x (List.mem_cons_of_mem y hx)

theorem cpLenAux_le (hd : List Nat) (tl : List (List Nat)) (m : Nat) :
    ∀ (fuel i : Nat), i ≤ cpLenAux hd tl m fuel i ∧ cpLenAux hd tl m fuel i ≤ i + fuel := by
  intro fuel
  induction fuel with
  | zero => intro i; exact ⟨le_rfl, le_rfl⟩
  | succ n ih =>
    intro i
    simp only [cpLenAux]
    split
    · have := ih (i + 1)
      omega
    · omega

theorem cpLenAux_agree (hd : List Nat) (tl : List (List Nat)) (m : Nat) :
    ∀ (fuel i j : Nat), i ≤ j → j < cpLenAux hd tl m fuel i →
      j < m ∧ agreeAt hd tl j = true := by
  intro fuel
  induction fuel with
  | zero =>
    intro i j hij hj
    simp only [cpLenAux] at hj
    omega
  | succ n ih =>
    intro i j hij hj
    simp only [cpLenAux] at hj
    split at hj
    case isTrue hcond =>
      rcases Nat.eq_or_lt_of_le hij with rfl | hlt
      · exact hcond
      · exact ih (i + 1) j hlt hj
    case isFalse hcond => omega

theorem cpLenAux_stop (hd : List Nat) (tl : List (List Nat)) (m : Nat) :
    ∀ (fuel i : Nat), cpLenAux hd tl m fuel i < i + fuel →
      ¬ (cpLenAux hd tl m fuel i < m ∧ agreeAt hd tl (cpLenAux hd tl m fuel i) = true) := by
  intro fuel
  induction fuel with
  | zero =>
    intro i h
    simp only [cpLenAux] at h
    omega
  | succ n ih =>
    intro i h
    simp only [cpLenAux] at h ⊢
    by_cases hcond : i < m ∧ agreeAt hd tl i = true
    · rw [if_pos hcond] at h ⊢
      exact ih (i + 1) (by omega)
    · rw [if_neg hcond] at h ⊢
      exact hcond

/-- If `pfx` is a prefix of `l`, the two agree (via `getD`) below `pfx.length`. -/
theorem getD_of_pre (pfx l : List Nat) (d : Nat) (h : pfx <+: l) (j : Nat)
    (hj : j < pfx.length) : l.getD j d = pfx.getD j d := by
  obtain ⟨t, rfl⟩ := h
  exact List.getD_append pfx t d j hj

/-- `common_prefix` returns a prefix of every member of a non-empty collection,
and it is the longest such. -/
theorem commonPref_spec (hd : List Nat) (tl : List (List Nat)) :
    (∀ l ∈ hd :: tl, commonPref (hd :: tl) <+: l) ∧
    (∀ pfx : List Nat, (∀ l ∈ hd :: tl, pfx <+: l) →
      pfx.length ≤ (commonPref (hd :: tl)).length) := by
  set m := minLength hd tl with hm
  set r := cpLenAux hd tl m m 0 with hr
  have hrm : r ≤ m := by
    have := cpLenAux_le hd tl m m 0
    omega
  have hmhd : m ≤ hd.length := foldl_min_le_init _ _
  have hmtl : ∀ l ∈ tl, m ≤ l.length := by
    intro l hl
    exact foldl_min_le_mem _ _ _ (List.mem_map_of_mem List.length hl)
  have hagree : ∀ j, j < r → agreeAt hd tl j = true := by
    intro j hj
    exact (cpLenAux_agree hd tl m m 0 j (Nat.zero_le j) hj).2
  have hcp : commonPref (hd :: tl) = hd.take r := rfl
  have htake : ∀ l ∈ tl, hd.take r = l.take r := by
    intro l hl
    have hml : m ≤ l.length := hmtl l hl
    refine List.ext_getElem (by simp; omega) ?_
    intro i h1 h2
    rw [List.getElem_take, List.getElem_take]
    rw [List.length_take] at h1 h2
    have hir : i < r := by omega
    have hagr := (List.all_eq_true.mp (hagree i hir)) l hl
    have heq : l.getD i 0 = hd.getD i 0 := beq_iff_eq.mp hagr
    rw [List.getD_eq_getElem l 0 (by omega), List.getD_eq_getElem hd 0 (by omega)] at heq
    exact heq.symm
  constructor
  · intro l hl
    rcases List.mem_cons.mp hl with rfl | hl'
    · rw [hcp]
      exact List.take_prefix r l
    · rw [hcp, htake l hl']
      exact List.take_prefix r l
  · intro pfx hpfx
    rw [hcp]
    by_contra hcon
    push_neg at hcon
    have hlen : (hd.take r).length = r := by
      simp
      omega
    rw [hlen] at hcon
    have hpm : pfx.length ≤ m := by
      rw [hm]
      refine le_foldl_min _ _ _ ((hpfx hd (List.mem_cons_self hd tl)).length_le) ?_
      intro x hx
      obtain ⟨l, hl, rfl⟩ := List.mem_map.mp hx
      exact (hpfx l (List.mem_cons_of_mem hd hl)).length_le
    have hstop := cpLenAux_stop hd tl m m 0 (by omega)
    rw [← hr] at hstop
    refine hstop ⟨by omega, ?_⟩
    rw [agreeAt, List.all_eq_true]
    intro l hl
    have h1 : l.getD r 0 = pfx.getD r 0 :=
      getD_of_pre pfx l 0 (hpfx l (List.mem_cons_of_mem hd hl)) r hcon
    have h2 : hd.getD r 0 = pfx.getD r 0 :=
      getD_of_pre pfx hd 0 (hpfx hd (List.mem_cons_self hd tl)) r hcon
    rw [h1, h2]
    exact beq_self_eq_true _

/-- C8.  On a non-empty collection, `common_prefix` returns the longest common
prefix, `common_suffix` the longest common suffix, and `common_suffix` is by
construction the reversal of `common_prefix` of the reversed lists. -/
theorem claireC8 (hd : List Nat) (tl : List (List Nat)) :
    (∀ l ∈ hd :: tl, commonPref (hd :: tl) <+: l) ∧
    (∀ pfx : List Nat, (∀ l ∈ hd :: tl, pfx <+: l) →
      pfx.length ≤ (commonPref (hd :: tl)).length) ∧
    (∀ l ∈ hd :: tl, commonSuf (hd :: tl) <:+ l) ∧
    (∀ sfx : List Nat, (∀ l ∈ hd :: tl, sfx <:+ l) →
      sfx.length ≤ (commonSuf (hd :: tl)).length) ∧
    commonSuf (hd :: tl) = (commonPref ((hd :: tl).map List.reverse)).reverse := by
  have hpre := commonPref_spec hd tl
  have hpre' := commonPref_spec hd.reverse (tl.map List.reverse)
  have hmap : (hd :: tl).map List.reverse = hd.reverse :: tl.map List.reverse := rfl
  refine ⟨hpre.1, hpre.2, ?_, ?_, rfl⟩
  · intro l hl
    have hmem : l.reverse ∈ hd.reverse :: tl.map List.reverse := by
      rcases List.mem_cons.mp hl with rfl | hl'
      · exact List.mem_cons_self _ _
      · exact List.mem_cons_of_mem _ (List.mem_map_of_mem List.reverse hl')
    have h1 := hpre'.1 l.reverse hmem
    have h2 : (commonSuf (hd :: tl)).reverse <+: l.reverse := by
      rw [commonSuf, hmap, List.reverse_reverse]
      exact h1
    exact List.reverse_prefix.mp h2
  · intro sfx hsfx
    have h1 : ∀ l ∈ hd.reverse :: tl.map List.reverse, sfx.reverse <+: l := by
      intro l hl
      rcases List.mem_cons.mp hl with rfl | hl'
      · exact List.reverse_prefix.mpr (hsfx hd (List.mem_cons_self hd tl))
      · obtain ⟨l0, hl0, rfl⟩ := List.mem_map.mp hl'
        exact List.reverse_prefix.mpr (hsfx l0 (List.mem_cons_of_mem hd hl0))
    have h2 := hpre'.2 sfx.reverse h1
    rw [List.length_reverse] at h2
    rw [commonSuf, hmap, List.length_reverse]
    exact h2

/-- C8 witness: on the concrete collection `[[1,2,3],[1,2,4]]`, the computed
common prefix `[1,2]` is a prefix of the first member, and any common prefix
(such as `[1]`) is no longer than it; symmetrically for the common suffix of
`[[1,2,3],[5,2,3]]`. -/
theorem claireC8_witness :
    commonPref [[1, 2, 3], [1, 2, 4]] <+: [1, 2, 3] ∧
    ([1] : List Nat).length ≤ (commonPref [[1, 2, 3], [1, 2, 4]]).length ∧
    commonSuf [[1, 2, 3], [5, 2, 3]] <:+ [5, 2, 3] ∧
    ([3] : List Nat).length ≤ (commonSuf [[1, 2, 3], [5, 2, 3]]).length := by
  refine ⟨(claireC8 [1, 2, 3] [[1, 2, 4]]).1 [1, 2, 3] (by simp), ?_, ?_, ?_⟩
  · exact (claireC8 [1, 2, 3] [[1, 2, 4]]).2.1 [1] (by decide)
  · exact (claireC8 [1, 2, 3] [[5, 2, 3]]).2.2.1 [5, 2, 3] (by simp)
  · exact (claireC8 [1, 2, 3] [[5, 2, 3]]).2.2.2.1 [3] (by decide)

/-- C7 counterexample tokenizer: every exemplar tag tokenizes with the two-token
prefix `[5, 6]`, and decode does not round-trip it to `"["`. -/
def encodeX : String → List Nat := fun t =>
  if t = "[speaker001:]" then [5, 6, 1, 9]
  else if t = "[Intervenant 1:]" then [5, 6, 2, 9]
  else if t = "[A:]" then [5, 6, 3, 9]
  else []

def decodeX : List Nat → String := fun l => if l = [9] then ":]" else "x"

/-- C7 counterexample: a tokenizer whose common tag prefix has more than one
token need not fail with the `NotImplementedError` — the decode assertion is
checked first, so `tagBoundaryResolve` fails with the decode assertion
instead. -/
theorem claireC7_cex :
    1 < (commonPref (tagTokensOf encodeX)).length ∧
    tagBoundaryResolve encodeX decodeX ≠ .error .notImplemented ∧
    tagBoundaryResolve encodeX decodeX = .error .badDecode := by
  decide

/-- C7 amended: the resolver succeeds exactly when the common prefix and suffix
each consist of one token that decodes to `"["` / `":]"` respectively, in which
case it yields those single token ids; and a multi-token common prefix or
suffix fails with the `NotImplementedError` provided the non-emptiness and
decode assertions (checked first) pass. -/
theorem claireC7_amended (encode : String → List Nat) (decode : List Nat → String)
    (pS sS : Nat) :
    (tagBoundaryResolve encode decode = .ok (pS, sS) ↔
      ((commonPref (tagTokensOf encode)).length = 1 ∧
       (commonSuf (tagTokensOf encode)).length = 1 ∧
       decode (commonPref (tagTokensOf encode)) = "[" ∧
       decode (commonSuf (tagTokensOf encode)) = ":]" ∧
       pS = (commonPref (tagTokensOf encode)).getD 0 0 ∧
       sS = (commonSuf (tagTokensOf encode)).getD 0 0)) ∧
    ((commonPref (tagTokensOf encode)).length ≠ 0 →
     (commonSuf (tagTokensOf encode)).length ≠ 0 →
     decode (commonPref (tagTokensOf encode)) = "[" →
     decode (commonSuf (tagTokensOf encode)) = ":]" →
     1 < (commonPref (tagTokensOf encode)).length ∨
       1 < (commonSuf (tagTokensOf encode)).length →
     tagBoundaryResolve encode decode = .error .notImplemented) := by
  constructor
  · constructor
    · intro h
      simp only [tagBoundaryResolve] at h
      split_ifs at h with h1 h2 h3 h4 h5
      obtain ⟨hps, hss⟩ : (commonPref (tagTokensOf encode)).getD 0 0 = pS ∧
          (commonSuf (tagTokensOf encode)).getD 0 0 = sS := by
        have h0 := Except.ok.inj h
        exact ⟨congrArg Prod.fst h0, congrArg Prod.snd h0⟩
      exact ⟨by omega, by omega, not_not.mp h3, not_not.mp h4, hps.symm, hss.symm⟩
    · rintro ⟨hp1, hs1, hdp, hds, rfl, rfl⟩
      simp only [tagBoundaryResolve]
      rw [if_neg (by omega), if_neg (by omega), if_neg (by simp [hdp]),
        if_neg (by simp [hds]), if_neg (by omega)]
  · intro hp0 hs0 hdp hds hgt
    simp only [tagBoundaryResolve]
    rw [if_neg hp0, if_neg hs0, if_neg (by simp [hdp]), if_neg (by simp [hds]), if_pos hgt]

/-- C7 amended witness: for a tokenizer that maps each exemplar to a single
shared opening token and closing token with a round-tripping decode, the
resolver succeeds with those ids; instantiated via the characterization. -/
theorem claireC7_amended_witness :
    tagBoundaryResolve
        (fun t => if t = "[speaker001:]" then [5, 1, 9]
                  else if t = "[Intervenant 1:]" then [5, 2, 9] else [5, 3, 9])
        (fun l => if l = [5] then "[" else if l = [9] then ":]" else "x")
      = .ok (5, 9) :=
  (claireC7_amended
      (fun t => if t = "[speaker001:]" then [5, 1, 9]
                else if t = "[Intervenant 1:]" then [5, 2, 9] else [5, 3, 9])
      (fun l => if l = [5] then "[" else if l = [9] then ":]" else "x")
      5 9).1.mpr (by decide)

/-! ### Lemmas about the spec-modelled augmentation generator -/

theorem dedupEmit_nodup_notmem : ∀ (cs seen : List String),
    (dedupEmit cs seen).Nodup ∧ ∀ x ∈ dedupEmit cs seen, x ∉ seen := by
  intro cs
  induction cs with
  | nil =>
    intro seen
    exact ⟨List.nodup_nil, fun x hx => absurd hx (List.not_mem_nil x)⟩
  | cons c rest ih =>
    intro seen
    simp only [dedupEmit]
    split
    case isTrue hc => exact ih seen
    case isFalse hc =>
      obtain ⟨hnd, hnm⟩ := ih (c :: seen)
      constructor
      · exact List.nodup_cons.mpr
          ⟨fun hmem => (hnm c hmem) (List.mem_cons_self c seen), hnd⟩
      · intro x hx
        rcases List.mem_cons.mp hx with rfl | hx'
        · exact hc
        · exact fun hxs => (hnm x hx') (List.mem_cons_of_mem c hxs)

/-- C2.  (spec-modelled) For every conversation (represented by its ordered
candidate renderings, candidate 0 being the canonical level-0 normalization)
and every level `L`, the generator returns `min (M + 1) (L + 1)` variants where
`M` is the text's maximum distinct-variant count; the returned variants are
pairwise distinct; and variant 0 is the canonical normalization. -/
theorem claireC2 (cs : List String) (L : Nat) (hne : cs ≠ []) :
    (augmentedTextsGen cs (some L)).length = min (maxVariants cs + 1) (L + 1) ∧
    (augmentedTextsGen cs (some L)).Nodup ∧
    (augmentedTextsGen cs (some L)).head? = cs.head? := by
  obtain ⟨c, rest, rfl⟩ := List.exists_cons_of_ne_nil hne
  have hdd : dedupEmit (c :: rest) [] = c :: dedupEmit rest [c] := by
    simp [dedupEmit]
  refine ⟨?_, ?_, ?_⟩
  · rw [augmentedTextsGen, maxVariants, List.length_take, hdd]
    simp only [List.length_cons, Nat.succ_sub_one]
    exact Nat.min_comm _ _
  · rw [augmentedTextsGen]
    exact List.Nodup.sublist (List.take_sublist _ _) (dedupEmit_nodup_notmem (c :: rest) []).1
  · rw [augmentedTextsGen, hdd]
    simp [List.take_succ_cons]

/-- C2 witness: on the candidate list `["a", "b", "a", "c"]` (maximum
distinct-variant count 2) at level 1, the generator returns 2 pairwise-distinct
variants headed by the canonical rendering `"a"`. -/
theorem claireC2_witness :
    (augmentedTextsGen ["a", "b", "a", "c"] (some 1)).length
        = min (maxVariants ["a", "b", "a", "c"] + 1) (1 + 1) ∧
      (augmentedTextsGen ["a", "b", "a", "c"] (some 1)).Nodup ∧
      (augmentedTextsGen ["a", "b", "a", "c"] (some 1)).head?
        = (["a", "b", "a", "c"] : List String).head? :=
  claireC2 ["a", "b", "a", "c"] 1 (by decide)

/-- C9.  (spec-modelled) On a conversation whose maximum distinct-variant count
is 0 (level-0 normalization is the only unforced output), forced augmentation
at level 0 still returns exactly one variant, and some random draw within the
(at most 10-element) pool of alternative renderings yields a variant different
from the canonical normalization. -/
theorem claireC9 (cs : List String) (canonical : String) (pool : List String)
    (hzero : maxVariants cs = 0) (hcan : cs.head? = some canonical)
    (hx : ∃ x ∈ pool, x ≠ canonical) (hsmall : pool.length ≤ 10) :
    augmentedTextsGen cs (some 0) = [canonical] ∧
    (∀ seed : Nat, (forcedVariants canonical pool seed).length = 1) ∧
    (∃ seed, seed < 10 ∧ forcedVariants canonical pool seed ≠ [canonical]) := by
  refine ⟨?_, fun seed => rfl, ?_⟩
  · cases cs with
    | nil => exact absurd hcan (by simp)
    | cons a rest =>
      simp only [List.head?_cons, Option.some.injEq] at hcan
      subst hcan
      have hdd : dedupEmit (a :: rest) [] = a :: dedupEmit rest [a] := by
        simp [dedupEmit]
      rw [maxVariants, hdd] at hzero
      have hX : dedupEmit rest [a] = [] := List.length_eq_zero.mp (by simpa using hzero)
      rw [augmentedTextsGen, hdd, hX]
      rfl
  · obtain ⟨x, hxp, hxc⟩ := hx
    obtain ⟨i, hi, rfl⟩ := List.mem_iff_getElem.mp hxp
    refine ⟨i, by omega, ?_⟩
    rw [forcedVariants, Nat.mod_eq_of_lt hi, List.getD_eq_getElem pool canonical hi]
    simpa using hxc

/-- C9 witness: the zero-ceiling candidate list `["x"]` with forced pool
`["y"]`: one variant is returned, and the draw `seed = 0` differs from the
canonical normalization. -/
theorem claireC9_witness :
    augmentedTextsGen ["x"] (some 0) = ["x"] ∧
    (forcedVariants "x" ["y"] 0).length = 1 ∧
    (∃ seed, seed < 10 ∧ forcedVariants "x" ["y"] seed ≠ ["x"]) := by
  have h := claireC9 ["x"] "x" ["y"] (by decide) (by decide)
    ⟨"y", by simp, by decide⟩ (by decide)
  exact ⟨h.1, h.2.1 0, h.2.2⟩

end Claire
